import Mathlib

/-!
Verification of the transcript alignment engine of `video-source`.

The definitions below are a shallow embedding of `src/video_source/util.py`
(text normalization and tokenization), `src/video_source/match.py` (flat
transcript, position-to-time mapping, exact/anchor matcher, fuzzy window
matcher) and the candidate-ranking score of `src/video_source/cli.py`.

Modelling conventions:
* Python strings are `List Char`; Python floats are `ℚ` (the engine only
  performs field arithmetic, comparisons and floor/round on them).
* `str.lower` is modelled on the ASCII range (`lowerChar`), and the regex
  class `\s` by the six ASCII whitespace characters (`isWs`); the engine
  normalizes every other character away, so this agrees with the source on
  the characters that can reach a flat transcript.
* Python's `round` (banker's rounding) is `pyRoundQ`.
* Fallible lookups that are unreachable in the source (`word_times[i]` on
  indices the loop guarantees in range) use `List.getD` with a default.
-/

namespace VideoSource

/-! ## Text normalizer (`util.py`, `normalize_text` / `tokenize`) -/

/-- Python regex `\s` (ASCII range): space, tab, newline, carriage return,
vertical tab, form feed. -/
def isWs (c : Char) : Bool :=
  decide (c.toNat = 32 ∨ c.toNat = 9 ∨ c.toNat = 10 ∨ c.toNat = 13 ∨
    c.toNat = 11 ∨ c.toNat = 12)

/-- The character class `[a-z0-9']` kept by `normalize_text`. -/
def allowedChar (c : Char) : Bool :=
  decide ((97 ≤ c.toNat ∧ c.toNat ≤ 122) ∨ (48 ≤ c.toNat ∧ c.toNat ≤ 57) ∨
    c.toNat = 39)

/-- `str.lower` on the ASCII range: `A`-`Z` maps to `a`-`z`. -/
def lowerChar (c : Char) : Char :=
  if 65 ≤ c.toNat ∧ c.toNat ≤ 90 then Char.ofNat (c.toNat + 32) else c

/-- The four `str.replace` calls of `normalize_text`: curly single quotes
(U+2018/U+2019) become `'`, curly double quotes (U+201C/U+201D) become `"`. -/
def dequoteChar (c : Char) : Char :=
  if c.toNat = 8217 ∨ c.toNat = 8216 then '\''
  else if c.toNat = 8220 ∨ c.toNat = 8221 then '"'
  else c

/-- `re.sub(p+, r, s)`: replace every maximal run of characters satisfying
`p` by the single character `r`.  The flag records whether we are inside a
run (so only its first character emits `r`). -/
def subRunsAux (p : Char → Bool) (r : Char) : Bool → List Char → List Char
  | _, [] => []
  | inRun, c :: cs =>
    if p c then
      if inRun then subRunsAux p r true cs
      else r :: subRunsAux p r true cs
    else c :: subRunsAux p r false cs

def subRuns (p : Char → Bool) (r : Char) (l : List Char) : List Char :=
  subRunsAux p r false l

/-- Python `str.strip()`: drop `p`-characters from both ends. -/
def pstrip (p : Char → Bool) (l : List Char) : List Char :=
  ((l.dropWhile p).reverse.dropWhile p).reverse

/-- `util.normalize_text`: lower-case, straighten curly quotes, collapse
whitespace runs, replace runs of characters outside `[a-z0-9'\s]` by a
space, collapse whitespace again and strip. -/
def normalize_text (s : List Char) : List Char :=
  let s1 := s.map lowerChar
  let s2 := s1.map dequoteChar
  let s3 := subRuns isWs ' ' s2
  let s4 := subRuns (fun c => !(allowedChar c || isWs c)) ' ' s3
  let s5 := subRuns isWs ' ' s4
  pstrip isWs s5

/-- Python `str.split()` (no separator): split on whitespace runs,
discarding empty pieces; `acc` holds the current word reversed. -/
def splitWsAux : List Char → List Char → List (List Char)
  | [], acc => if acc = [] then [] else [acc.reverse]
  | c :: cs, acc =>
    if isWs c then
      if acc = [] then splitWsAux cs []
      else acc.reverse :: splitWsAux cs []
    else splitWsAux cs (c :: acc)

/-- `util.tokenize`: `normalize_text(s).split() if normalize_text(s) else []`. -/
def tokenize (s : List Char) : List (List Char) :=
  let n := normalize_text s
  if n = [] then [] else splitWsAux n []

/-- Python `" ".join(tokens)`. -/
def joinWords : List (List Char) → List Char
  | [] => []
  | [t] => t
  | t :: u :: rest => t ++ ' ' :: joinWords (u :: rest)

/-! ## Data model (`types.py`, `match.py`) -/

/-- `types.CaptionSeg`; the source field `end` is a Lean keyword and is
called `stop` here. -/
structure CaptionSeg where
  start : ℚ
  stop : ℚ
  text : List Char
deriving DecidableEq

/-- The `details` dict of a `MatchResult`.  Keys a tier does not set are
modelled as `none`. -/
structure Details where
  coverage : ℚ
  similarity : ℚ
  evidence : String
  preview : List Char
  ngram_n : Option Nat
  tightened_by_ngram : Option Bool
  ngram : Option (List Char)
deriving DecidableEq

/-- `match.MatchResult`. -/
structure MatchResult where
  timestamp_start : String
  timestamp_end : String
  confidence : ℚ
  details : Details
deriving DecidableEq

/-- A flat-transcript span `(char_start, char_end, seg_start, seg_end)`. -/
abbrev Span := Nat × Nat × ℚ × ℚ

/-- Python `round` on an exact rational: round half to even. -/
def pyRoundQ (q : ℚ) : ℤ :=
  let f := ⌊q⌋
  let r := q - (f : ℚ)
  if r < 1/2 then f
  else if 1/2 < r then f + 1
  else if f % 2 = 0 then f else f + 1

/-- Zero-padded two-digit field of `util.hms`. -/
def pad2 (n : Nat) : String :=
  if n < 10 then "0" ++ toString n else toString n

/-- `util.hms`: clamp negatives to zero, round to the nearest second,
format `HH:MM:SS`. -/
def hms (seconds : ℚ) : String :=
  let s0 := if seconds < 0 then (0 : ℚ) else seconds
  let s := (pyRoundQ s0).toNat
  pad2 (s / 3600) ++ ":" ++ pad2 ((s % 3600) / 60) ++ ":" ++ pad2 (s % 60)

/-- Python `round(x, 3)`. -/
def round3 (q : ℚ) : ℚ := (pyRoundQ (q * 1000) : ℚ) / 1000

/-! ## Flat transcript builder (`match.build_flat_transcript`) -/

/-- `match.build_flat_transcript`: concatenate the non-empty normalized
segment texts, separated by single spaces, recording each segment's
character span and time range.  The source's running offset `cur` is
always the length of the accumulated text, so the accumulator carries the
text and the span list only. -/
def build_flat_transcript (segs : List CaptionSeg) : List Char × List Span :=
  segs.foldl
    (fun acc s =>
      let t := normalize_text s.text
      if t = [] then acc
      else
        let flat := if acc.1 = [] then acc.1 else acc.1 ++ [' ']
        let a := flat.length
        let b := a + t.length
        (flat ++ t, acc.2 ++ [(a, b, s.start, s.stop)]))
    ([], [])

/-! ## Position-to-time mapper (`match.charpos_to_time`) -/

/-- The overlap scan of `charpos_to_time`: skip spans with `b <= pos0`,
stop at the first span with `a >= pos1` (`break`), collect the rest. -/
def overlapSpans : List Span → Nat → Nat → List Span
  | [], _, _ => []
  | (a, b, st, et) :: rest, pos0, pos1 =>
    if b ≤ pos0 then overlapSpans rest pos0 pos1
    else if pos1 ≤ a then []
    else (a, b, st, et) :: overlapSpans rest pos0 pos1

/-- Proportional interpolation of a character position inside one span,
with the source's guards: character length floored at 1, duration floored
at `1e-6`, fraction clamped to `[0, 1]`.  The source writes this code out
twice (for the first and the last overlapped span). -/
def interpTime (sp : Span) (pos : Nat) : ℚ :=
  let a := sp.1
  let b := sp.2.1
  let st := sp.2.2.1
  let et := sp.2.2.2
  let dur := max (1/1000000) (et - st)
  let spanLen : ℚ := max 1 ((b : ℚ) - (a : ℚ))
  let frac := min 1 (max 0 (((pos : ℚ) - (a : ℚ)) / spanLen))
  st + frac * dur

/-- `match.charpos_to_time`. -/
def charpos_to_time (spans : List Span) (pos0 pos1 : Nat) : ℚ × ℚ :=
  match overlapSpans spans pos0 pos1 with
  | [] => (0, 0)
  | first :: rest =>
    let start_t := interpTime first pos0
    let end_t := interpTime ((first :: rest).getLast (List.cons_ne_nil _ _)) pos1
    if end_t < start_t then (start_t, start_t) else (start_t, end_t)

/-! ## Exact phrase / n-gram anchor matcher (`match.exact_phrase_anchor`) -/

/-- Python `str.find`, returning the least index at which `pat` occurs in
the remaining text (`i` is the number of characters already skipped);
`none` models the source's `-1`. -/
def findSubAux (pat : List Char) : List Char → Nat → Option Nat
  | [], i => if pat.isPrefixOf ([] : List Char) then some i else none
  | c :: t, i =>
    if pat.isPrefixOf (c :: t) then some i else findSubAux pat t (i + 1)

/-- `match.ANCHOR_NGRAMS = (12, 10, 8)`. -/
def ANCHOR_NGRAMS : List Nat := [12, 10, 8]

/-- One iteration of the anchor search's inner loop: try the `n`-word
chunk of the snippet tokens starting at `i`. -/
def anchorCandAt (flat : List Char) (spans : List Span)
    (toks : List (List Char)) (n i : Nat) : Option MatchResult :=
  let chunk := joinWords ((toks.drop i).take n)
  let chunk_n := normalize_text chunk
  match findSubAux chunk_n flat 0 with
  | none => none
  | some j =>
    let ts := charpos_to_time spans j (j + chunk_n.length)
    some ⟨hms ts.1, hms ts.2, 80 + min 18 (n : ℚ),
      ⟨1, 0.95, "youtube:phrase_anchor", chunk_n.take 240, some n, none, none⟩⟩

/-- The source's `best` update: replace only on strictly greater
confidence. -/
def anchorStep (g : Nat → Option MatchResult)
    (best : Option MatchResult) (i : Nat) : Option MatchResult :=
  match g i with
  | none => best
  | some cand =>
    match best with
    | none => some cand
    | some b => if b.confidence < cand.confidence then some cand else some b

/-- The inner loop of the anchor search at a fixed length `n` (all window
start offsets, left to right). -/
def bestAnchorAtN (flat : List Char) (spans : List Span)
    (toks : List (List Char)) (n : Nat) : Option MatchResult :=
  (List.range (toks.length - n + 1)).foldl
    (anchorStep (anchorCandAt flat spans toks n)) none

/-- The outer loop over `ANCHOR_NGRAMS`: skip lengths longer than the
snippet, and return as soon as some length produced a hit. -/
def anchorLoop (flat : List Char) (spans : List Span)
    (toks : List (List Char)) : List Nat → Option MatchResult
  | [] => none
  | n :: rest =>
    if toks.length < n then anchorLoop flat spans toks rest
    else
      match bestAnchorAtN flat spans toks n with
      | some r => some r
      | none => anchorLoop flat spans toks rest

/-- `match.exact_phrase_anchor`: full-snippet exact substring match first
(confidence 98), then decreasing-length n-gram anchors; `min ANCHOR_NGRAMS`
is 8. -/
def exact_phrase_anchor (segs : List CaptionSeg) (snippet : List Char) :
    Option MatchResult :=
  let fp := build_flat_transcript segs
  let flat := fp.1
  let spans := fp.2
  let sn := normalize_text snippet
  if sn = [] ∨ flat = [] then none
  else
    match findSubAux sn flat 0 with
    | some idx =>
      let ts := charpos_to_time spans idx (idx + sn.length)
      some ⟨hms ts.1, hms ts.2, 98,
        ⟨1, 1, "youtube:exact_phrase", sn.take 240, none, none, none⟩⟩
    | none =>
      let toks := tokenize snippet
      if 8 ≤ toks.length then anchorLoop flat spans toks ANCHOR_NGRAMS
      else none

/-! ## Fuzzy window matcher (`match.best_fuzzy_match`) -/

/-- `match.jaccard` on token multisets, via their underlying sets. -/
def jaccard (a b : List (List Char)) : ℚ :=
  let sa := a.toFinset
  let sb := b.toFinset
  if sa = ∅ ∨ sb = ∅ then 0
  else ((sa ∩ sb).card : ℚ) / ((sa ∪ sb).card : ℚ)

/-- `match.coverage_ratio`, named `coverageFrac` here: the fraction of
distinct snippet tokens present in the window. -/
def coverageFrac (snippet_tokens window_tokens : List (List Char)) : ℚ :=
  if snippet_tokens = [] then 0
  else
    let sw := window_tokens.toFinset
    let ss := snippet_tokens.toFinset
    ((ss.filter (fun t => t ∈ sw)).card : ℚ) / (ss.card : ℚ)

/-- `tokens[i:i+n]`. -/
def sliceToks (l : List (List Char)) (i n : Nat) : List (List Char) :=
  (l.drop i).take n

/-- One length of `match.tighten_with_ngram`: the first snippet `n`-gram
(scanning `j` left to right) whose joined text equals some window `n`-gram,
taken at that n-gram's first occurrence `i0` in the window. -/
def tightenAtN (wt : List (List Char)) (times : List (ℚ × ℚ))
    (st : List (List Char)) (n : Nat) : Option (ℚ × ℚ × List Char × Nat) :=
  (List.range (st.length - n + 1)).findSome? (fun j =>
    let key := joinWords (sliceToks st j n)
    match (List.range (wt.length - n + 1)).find?
        (fun i => joinWords (sliceToks wt i n) == key) with
    | none => none
    | some i0 =>
      some ((times.getD i0 (0, 0)).1, (times.getD (i0 + n - 1) (0, 0)).2,
        key, n))

/-- The descending loop `for n in range(max_n, min_n - 1, -1)`, expressed
structurally on `n`. -/
def tightenLoop (wt : List (List Char)) (times : List (ℚ × ℚ))
    (st : List (List Char)) (min_n : Nat) : Nat → Option (ℚ × ℚ × List Char × Nat)
  | 0 => if min_n = 0 then tightenAtN wt times st 0 else none
  | k + 1 =>
    if min_n ≤ k + 1 then
      match tightenAtN wt times st (k + 1) with
      | some r => some r
      | none => tightenLoop wt times st min_n k
    else none

/-- `match.tighten_with_ngram`. -/
def tighten_with_ngram (window_tokens : List (List Char))
    (window_word_times : List (ℚ × ℚ)) (snippet_tokens : List (List Char))
    (min_n max_n : Nat) : Option (ℚ × ℚ × List Char × Nat) :=
  if window_tokens = [] ∨ snippet_tokens = [] then none
  else
    tightenLoop window_tokens window_word_times snippet_tokens min_n
      (min max_n (min snippet_tokens.length window_tokens.length))

/-- The token stream of `best_fuzzy_match`: every token of every segment,
carrying its owning segment's `(start, end)` times. -/
def wordStream (segs : List CaptionSeg) : List (List Char × ℚ × ℚ) :=
  (segs.map (fun s => (tokenize s.text).map (fun t => (t, s.start, s.stop)))).flatten

/-- The window `words[i : min(len(words), i+W)]`. -/
def windowAt (stream : List (List Char × ℚ × ℚ)) (W i : Nat) :
    List (List Char × ℚ × ℚ) :=
  (stream.drop i).take (min stream.length (i + W) - i)

def winTokensAt (stream : List (List Char × ℚ × ℚ)) (W i : Nat) :
    List (List Char) :=
  (windowAt stream W i).map Prod.fst

def covAt (snip : List (List Char)) (stream : List (List Char × ℚ × ℚ))
    (W i : Nat) : ℚ :=
  coverageFrac snip (winTokensAt stream W i)

def simAt (snip : List (List Char)) (stream : List (List Char × ℚ × ℚ))
    (W i : Nat) : ℚ :=
  jaccard snip (winTokensAt stream W i)

/-- `length_penalty = min(1.0, len(window_tokens) / max(1, len(snippet_tokens)))`. -/
def penAt (snip : List (List Char)) (stream : List (List Char × ℚ × ℚ))
    (W i : Nat) : ℚ :=
  min 1 (((winTokensAt stream W i).length : ℚ) / ((max 1 snip.length : Nat) : ℚ))

/-- `score = coverage*100 + similarity*40 - length_penalty*5`. -/
def scoreAt (snip : List (List Char)) (stream : List (List Char × ℚ × ℚ))
    (W i : Nat) : ℚ :=
  covAt snip stream W i * 100 + simAt snip stream W i * 40 -
    penAt snip stream W i * 5

/-- The body of the fuzzy window loop at start index `i`: `none` when the
window fails the coverage floor, otherwise the candidate `MatchResult`
paired with its score. -/
def fuzzyCandAt (snip : List (List Char)) (stream : List (List Char × ℚ × ℚ))
    (W i : Nat) : Option (MatchResult × ℚ) :=
  let window := windowAt stream W i
  let window_tokens := winTokensAt stream W i
  let cov := covAt snip stream W i
  if cov < 1/5 then none
  else
    let sim := simAt snip stream W i
    let score := scoreAt snip stream W i
    let j := min stream.length (i + W)
    let preview := (joinWords (window_tokens.take 60)).take 280
    match tighten_with_ngram window_tokens (window.map Prod.snd) snip 4 12 with
    | some (st, et, ngram_txt, n) =>
      some (⟨hms st, hms et, score,
        ⟨round3 cov, round3 sim, "youtube:timed_transcript", preview,
          some n, some true, some (ngram_txt.take 240)⟩⟩, score)
    | none =>
      some (⟨hms (stream.getD i ([], 0, 0)).2.1,
        hms (stream.getD (j - 1) ([], 0, 0)).2.2, score,
        ⟨round3 cov, round3 sim, "youtube:timed_transcript", preview,
          none, some false, none⟩⟩, score)

/-- The `best`/`best_score` update of the fuzzy loop: replace only on
strictly greater score. -/
def selStep (f : Nat → Option (MatchResult × ℚ))
    (acc : Option MatchResult × ℚ) (i : Nat) : Option MatchResult × ℚ :=
  match f i with
  | none => acc
  | some cs => if acc.2 < cs.2 then (some cs.1, cs.2) else acc

/-- `range(0, stop, step)`; the source guarantees `step >= 1`. -/
def pyRange (stop step : Nat) : List Nat :=
  (List.range stop).filter (fun x => x % step == 0)

/-- `match.best_fuzzy_match`. -/
def best_fuzzy_match (segs : List CaptionSeg) (snippet : List Char)
    (window_words window_stride : Nat) : Option MatchResult :=
  let snippet_tokens := tokenize snippet
  if snippet_tokens = [] then none
  else
    let stream := wordStream segs
    if stream = [] then none
    else
      ((pyRange (max 1 (stream.length - window_words + 1)) window_stride).foldl
        (selStep (fuzzyCandAt snippet_tokens stream window_words))
        (none, -(10 ^ 18 : ℚ))).1

/-- `match.find_best_match`: exact/anchor first, fuzzy fallback. -/
def find_best_match (segs : List CaptionSeg) (snippet : List Char)
    (window_words window_stride : Nat) : Option MatchResult :=
  match exact_phrase_anchor segs snippet with
  | some r => some r
  | none => best_fuzzy_match segs snippet window_words window_stride

/-! ## Candidate ranking score (`cli.main`) -/

/-- The ranking score of `cli.main`: large additive tier offsets over the
match confidence. -/
def rankScore (evidence : String) (conf : ℚ) : ℚ :=
  if evidence = "youtube:exact_phrase" then 1000000 + conf
  else if evidence = "youtube:phrase_anchor" then 900000 + conf
  else conf

/-! ## Derived definitions used in the statements below -/

/-- The first anchor hit at length `n`, scanning window start offsets left
to right (this is what the source's inner loop returns at a fixed `n`,
since all candidates at the same `n` have equal confidence). -/
def anchorHit (flat : List Char) (spans : List Span)
    (toks : List (List Char)) (n : Nat) : Option MatchResult :=
  (List.range (toks.length - n + 1)).findSome? (anchorCandAt flat spans toks n)

/-- The window start offsets scanned by `best_fuzzy_match`. -/
def fuzzyPositions (segs : List CaptionSeg) (W stride : Nat) : List Nat :=
  pyRange (max 1 ((wordStream segs).length - W + 1)) stride

/-- A `MatchResult` the engine can actually produce for some input. -/
def EngineProduced (r : MatchResult) : Prop :=
  ∃ segs snippet W stride,
    find_best_match segs snippet W stride = some r

/-- A concrete exact-phrase result, produced by the engine for the
segments `[(0, 2, "hello world")]` and snippet `"Hello, World!"`. -/
def sampleExact : MatchResult :=
  ⟨"00:00:00", "00:00:02", 98,
    ⟨1, 1, "youtube:exact_phrase", "hello world".data, none, none, none⟩⟩

/-- A concrete phrase-anchor result, produced for the segments
`[(0, 2, "one two three four five six seven eight")]` and the snippet
`"zzz one two three four five six seven eight"` (full match fails, the
8-word anchor starting at token 1 hits). -/
def sampleAnchor : MatchResult :=
  ⟨"00:00:00", "00:00:02", 88,
    ⟨1, 0.95, "youtube:phrase_anchor",
      "one two three four five six seven eight".data, some 8, none, none⟩⟩

/-- A concrete fuzzy result, produced for the segments
`[(0, 2, "alpha beta gamma")]` and snippet `"alpha beta zzz"` with
`window_words = 10`, `window_stride = 1`. -/
def sampleFuzzy : MatchResult :=
  ⟨"00:00:00", "00:00:02", 245/3,
    ⟨667/1000, 1/2, "youtube:timed_transcript",
      "alpha beta gamma".data, none, some false, none⟩⟩

/-- The invariant satisfied by every output of `normalize_text`: only
characters of `[a-z0-9']` and single separating spaces, with no leading or
trailing space. -/
def NormalForm (l : List Char) : Prop :=
  (∀ c ∈ l, allowedChar c = true ∨ c = ' ') ∧
  List.Chain' (fun a b => ¬(isWs a = true ∧ isWs b = true)) l ∧
  (∀ c, l.head? = some c → isWs c = false) ∧
  (∀ c, l.getLast? = some c → isWs c = false)

/-! ## Lemmas: characters -/

theorem allowed_not_ws {c : Char} (h : allowedChar c = true) : isWs c = false := by
  simp only [allowedChar, decide_eq_true_eq] at h
  simp only [isWs, decide_eq_false_iff_not]
  omega

theorem lowerChar_eq_self {c : Char} (h : allowedChar c = true ∨ c = ' ') :
    lowerChar c = c := by
  rcases h with h | rfl
  · simp only [allowedChar, decide_eq_true_eq] at h
    unfold lowerChar
    rw [if_neg]
    omega
  · decide

theorem dequoteChar_eq_self {c : Char} (h : allowedChar c = true ∨ c = ' ') :
    dequoteChar c = c := by
  rcases h with h | rfl
  · simp only [allowedChar, decide_eq_true_eq] at h
    unfold dequoteChar
    rw [if_neg (by omega), if_neg (by omega)]
  · decide

theorem lowerChar_eq_self_of_ws {c : Char} (h : isWs c = true) :
    lowerChar c = c := by
  simp only [isWs, decide_eq_true_eq] at h
  unfold lowerChar
  rw [if_neg]
  omega

theorem dequoteChar_eq_self_of_ws {c : Char} (h : isWs c = true) :
    dequoteChar c = c := by
  simp only [isWs, decide_eq_true_eq] at h
  unfold dequoteChar
  rw [if_neg (by omega), if_neg (by omega)]

/-! ## Lemmas: run substitution (`subRuns`) -/

theorem subRunsAux_mem {p : Char → Bool} {r : Char} :
    ∀ (l : List Char) (flag : Bool) (c : Char), c ∈ subRunsAux p r flag l →
      (c ∈ l ∧ p c = false) ∨ c = r := by
  intro l
  induction l with
  | nil => intro flag c h; simp [subRunsAux] at h
  | cons a t ih =>
    intro flag c h
    by_cases hp : p a = true
    · cases flag with
      | true =>
        simp only [subRunsAux, hp, if_true] at h
        exact (ih true c h).imp (fun hc => ⟨List.mem_cons_of_mem _ hc.1, hc.2⟩) id
      | false =>
        simp only [subRunsAux, hp, if_true] at h
        rcases List.mem_cons.mp h with rfl | h
        · exact Or.inr rfl
        · exact (ih true c h).imp (fun hc => ⟨List.mem_cons_of_mem _ hc.1, hc.2⟩) id
    · rw [Bool.not_eq_true] at hp
      simp only [subRunsAux, hp, Bool.false_eq_true, if_false] at h
      rcases List.mem_cons.mp h with rfl | h
      · exact Or.inl ⟨List.mem_cons_self _ _, hp⟩
      · exact (ih false c h).imp (fun hc => ⟨List.mem_cons_of_mem _ hc.1, hc.2⟩) id

theorem subRunsAux_keep {p : Char → Bool} (r : Char) :
    ∀ (l : List Char) (flag : Bool) (c : Char), c ∈ l → p c = false →
      c ∈ subRunsAux p r flag l := by
  intro l
  induction l with
  | nil => intro flag c h; simp at h
  | cons a t ih =>
    intro flag c h hc
    by_cases hp : p a = true
    · have hat : c ∈ t := by
        rcases List.mem_cons.mp h with rfl | h
        · rw [hp] at hc; cases hc
        · exact h
      cases flag with
      | true => simpa only [subRunsAux, hp, if_true] using ih true c hat hc
      | false =>
        simp only [subRunsAux, hp, if_true]
        exact List.mem_cons_of_mem _ (ih true c hat hc)
    · rw [Bool.not_eq_true] at hp
      simp only [subRunsAux, hp, Bool.false_eq_true, if_false]
      rcases List.mem_cons.mp h with rfl | h
      · exact List.mem_cons_self _ _
      · exact List.mem_cons_of_mem _ (ih false c h hc)

theorem subRunsAux_id_of_no_p {p : Char → Bool} {r : Char} :
    ∀ (l : List Char) (flag : Bool), (∀ c ∈ l, p c = false) →
      subRunsAux p r flag l = l := by
  intro l
  induction l with
  | nil => intro flag _; rfl
  | cons a t ih =>
    intro flag h
    have ha : p a = false := h a (List.mem_cons_self _ _)
    simp only [subRunsAux, ha, Bool.false_eq_true, if_false]
    rw [ih false (fun c hc => h c (List.mem_cons_of_mem _ hc))]

theorem subRunsAux_head_true {p : Char → Bool} {r : Char} :
    ∀ (l : List Char) (c : Char), (subRunsAux p r true l).head? = some c →
      p c = false := by
  intro l
  induction l with
  | nil => intro c h; simp [subRunsAux] at h
  | cons a t ih =>
    intro c h
    by_cases hp : p a = true
    · simp only [subRunsAux, hp, if_true] at h
      exact ih c h
    · rw [Bool.not_eq_true] at hp
      simp only [subRunsAux, hp, Bool.false_eq_true, if_false, List.head?_cons,
        Option.some.injEq] at h
      rwa [← h]

theorem subRunsAux_chain {p : Char → Bool} {r : Char} :
    ∀ (l : List Char) (flag : Bool),
      List.Chain' (fun a b => ¬(p a = true ∧ p b = true))
        (subRunsAux p r flag l) := by
  intro l
  induction l with
  | nil => intro flag; simp [subRunsAux]
  | cons a t ih =>
    intro flag
    by_cases hp : p a = true
    · cases flag with
      | true => simpa only [subRunsAux, hp, if_true] using ih true
      | false =>
        simp only [subRunsAux, hp, if_true]
        refine List.chain'_cons'.mpr ⟨?_, ih true⟩
        intro y hy
        have := subRunsAux_head_true t y hy
        simp [this]
    · rw [Bool.not_eq_true] at hp
      simp only [subRunsAux, hp, Bool.false_eq_true, if_false]
      refine List.chain'_cons'.mpr ⟨?_, ih false⟩
      intro y _
      simp [hp]

theorem subRunsAux_id_of_chain {p : Char → Bool} {r : Char} :
    ∀ l : List Char,
      List.Chain' (fun a b => ¬(p a = true ∧ p b = true)) l →
      (∀ c ∈ l, p c = true → c = r) →
      subRunsAux p r false l = l ∧
        ((∀ c, l.head? = some c → p c = false) → subRunsAux p r true l = l) := by
  intro l
  induction l with
  | nil => exact fun _ _ => ⟨rfl, fun _ => rfl⟩
  | cons a t ih =>
    intro hchain hpr
    have htail := hchain.tail
    have ihs := ih htail (fun c hc => hpr c (List.mem_cons_of_mem _ hc))
    by_cases hp : p a = true
    · have har : a = r := hpr a (List.mem_cons_self _ _) hp
      have hheadt : ∀ c, t.head? = some c → p c = false := by
        intro c hc
        cases t with
        | nil => simp at hc
        | cons b t' =>
          simp only [List.head?_cons, Option.some.injEq] at hc
          subst hc
          have := List.chain'_cons.mp hchain
          by_contra hb
          rw [Bool.not_eq_false] at hb
          exact this.1 ⟨hp, hb⟩
      constructor
      · simp only [subRunsAux, hp, if_true]
        rw [ihs.2 hheadt, har]
        simp
      · intro hhead
        have := hhead a (by simp)
        rw [hp] at this
        cases this
    · rw [Bool.not_eq_true] at hp
      constructor
      · simp only [subRunsAux, hp, Bool.false_eq_true, if_false]
        rw [ihs.1]
      · intro _
        simp only [subRunsAux, hp, Bool.false_eq_true, if_false]
        rw [ihs.1]

theorem subRunsAux_all_p {p : Char → Bool} {r : Char} :
    ∀ l : List Char, (∀ c ∈ l, p c = true) →
      subRunsAux p r true l = [] ∧
        subRunsAux p r false l = (if l = [] then [] else [r]) := by
  intro l
  induction l with
  | nil => exact fun _ => ⟨rfl, rfl⟩
  | cons a t ih =>
    intro h
    have ha : p a = true := h a (List.mem_cons_self _ _)
    have iht := ih (fun c hc => h c (List.mem_cons_of_mem _ hc))
    constructor
    · simp only [subRunsAux, ha, if_true]
      exact iht.1
    · simp only [subRunsAux, ha, if_true, List.cons_ne_nil, if_false]
      rw [iht.1]
      simp

/-! ## Lemmas: stripping (`pstrip`) -/

theorem dropWhile_head_false {p : Char → Bool} :
    ∀ (l : List Char) (c : Char), (l.dropWhile p).head? = some c →
      p c = false := by
  intro l
  induction l with
  | nil => intro c h; simp at h
  | cons a t ih =>
    intro c h
    by_cases hp : p a = true
    · rw [List.dropWhile_cons_of_pos hp] at h
      exact ih c h
    · rw [Bool.not_eq_true] at hp
      rw [List.dropWhile_cons_of_neg (by simp [hp])] at h
      simp only [List.head?_cons, Option.some.injEq] at h
      rwa [← h]

theorem dropWhile_eq_self_of_head {p : Char → Bool} {l : List Char}
    (h : ∀ c, l.head? = some c → p c = false) : l.dropWhile p = l := by
  cases l with
  | nil => rfl
  | cons a t => exact List.dropWhile_cons_of_neg (by simp [h a rfl])

theorem mem_dropWhile_of_mem {p : Char → Bool} :
    ∀ (l : List Char) (c : Char), c ∈ l → p c = false → c ∈ l.dropWhile p := by
  intro l
  induction l with
  | nil => intro c h; simp at h
  | cons a t ih =>
    intro c h hc
    by_cases hp : p a = true
    · rw [List.dropWhile_cons_of_pos hp]
      rcases List.mem_cons.mp h with rfl | h
      · rw [hp] at hc; cases hc
      · exact ih c h hc
    · rw [Bool.not_eq_true] at hp
      rw [List.dropWhile_cons_of_neg (by simp [hp])]
      exact h

theorem getLast?_dropWhile {p : Char → Bool} :
    ∀ l : List Char, l.dropWhile p ≠ [] →
      (l.dropWhile p).getLast? = l.getLast? := by
  intro l
  induction l with
  | nil => intro h; simp at h
  | cons a t ih =>
    intro h
    by_cases hp : p a = true
    · rw [List.dropWhile_cons_of_pos hp] at h ⊢
      have ht : t ≠ [] := by
        intro he
        rw [he] at h
        exact h rfl
      rw [ih h]
      cases t with
      | nil => exact absurd rfl ht
      | cons b t' => rw [List.getLast?_cons_cons]
    · rw [Bool.not_eq_true] at hp
      rw [List.dropWhile_cons_of_neg (by simp [hp])]

theorem chain'_dropWhile {R : Char → Char → Prop} (p : Char → Bool) :
    ∀ l : List Char, List.Chain' R l → List.Chain' R (l.dropWhile p) := by
  intro l
  induction l with
  | nil => intro h; exact h
  | cons a t ih =>
    intro h
    by_cases hp : p a = true
    · rw [List.dropWhile_cons_of_pos hp]
      exact ih h.tail
    · rw [Bool.not_eq_true] at hp
      rwa [List.dropWhile_cons_of_neg (by simp [hp])]

theorem mem_pstrip {p : Char → Bool} {l : List Char} {c : Char}
    (h : c ∈ pstrip p l) : c ∈ l := by
  unfold pstrip at h
  rw [List.mem_reverse] at h
  have h1 := (List.dropWhile_sublist p).subset h
  rw [List.mem_reverse] at h1
  exact (List.dropWhile_sublist p).subset h1

theorem mem_pstrip_of_mem {p : Char → Bool} {l : List Char} {c : Char}
    (h : c ∈ l) (hc : p c = false) : c ∈ pstrip p l := by
  unfold pstrip
  rw [List.mem_reverse]
  apply mem_dropWhile_of_mem _ _ _ hc
  rw [List.mem_reverse]
  exact mem_dropWhile_of_mem _ _ h hc

theorem pstrip_head {p : Char → Bool} {l : List Char} {c : Char}
    (h : (pstrip p l).head? = some c) : p c = false := by
  unfold pstrip at h
  rw [List.head?_reverse] at h
  have hne : (l.dropWhile p).reverse.dropWhile p ≠ [] := by
    intro he
    rw [he] at h
    simp at h
  rw [getLast?_dropWhile _ hne, List.getLast?_reverse] at h
  exact dropWhile_head_false _ _ h

theorem pstrip_last {p : Char → Bool} {l : List Char} {c : Char}
    (h : (pstrip p l).getLast? = some c) : p c = false := by
  unfold pstrip at h
  rw [List.getLast?_reverse] at h
  exact dropWhile_head_false _ _ h

theorem pstrip_chain {p : Char → Bool} {l : List Char}
    (h : List.Chain' (fun a b => ¬(p a = true ∧ p b = true)) l) :
    List.Chain' (fun a b => ¬(p a = true ∧ p b = true)) (pstrip p l) := by
  unfold pstrip
  have h1 := chain'_dropWhile p l h
  have h2 : List.Chain' (fun a b => ¬(p a = true ∧ p b = true))
      (l.dropWhile p).reverse := by
    rw [List.chain'_reverse]
    exact h1.imp (fun a b hab hc => hab ⟨hc.2, hc.1⟩)
  have h3 := chain'_dropWhile p _ h2
  rw [List.chain'_reverse]
  exact h3.imp (fun a b hab hc => hab ⟨hc.2, hc.1⟩)

theorem pstrip_id {p : Char → Bool} {l : List Char}
    (hh : ∀ c, l.head? = some c → p c = false)
    (hl : ∀ c, l.getLast? = some c → p c = false) : pstrip p l = l := by
  unfold pstrip
  rw [dropWhile_eq_self_of_head hh]
  rw [dropWhile_eq_self_of_head (by
    intro c hc
    rw [List.head?_reverse] at hc
    exact hl c hc)]
  exact List.reverse_reverse l

/-! ## Lemmas: normal form of normalized text -/


theorem ws_eq_space {c : Char} (hw : isWs c = true)
    (h : allowedChar c = true ∨ c = ' ') : c = ' ' := by
  rcases h with h | rfl
  · rw [allowed_not_ws h] at hw
    cases hw
  · rfl

theorem normalize_normalForm (s : List Char) :
    NormalForm (normalize_text s) := by
  unfold normalize_text
  refine ⟨?_, ?_, ?_, ?_⟩
  · intro c hc
    have h5 := subRunsAux_mem _ _ _ (mem_pstrip hc)
    rcases h5 with ⟨h5m, h5w⟩ | rfl
    · have h4 := subRunsAux_mem _ _ _ h5m
      rcases h4 with ⟨_, h4p⟩ | rfl
      · cases hA : allowedChar c with
        | true => exact Or.inl rfl
        | false =>
          cases hW : isWs c with
          | true =>
            rw [h5w] at hW
            exact Bool.noConfusion hW
          | false =>
            rw [hA, hW] at h4p
            exact absurd h4p (by decide)
      · rw [show isWs ' ' = true from rfl] at h5w
        cases h5w
    · exact Or.inr rfl
  · exact pstrip_chain (subRunsAux_chain _ _)
  · exact fun c hc => pstrip_head hc
  · exact fun c hc => pstrip_last hc

theorem normalForm_normalize_id {l : List Char} (h : NormalForm l) :
    normalize_text l = l := by
  obtain ⟨hchar, hchain, hh, hl⟩ := h
  have h1 : l.map lowerChar = l := by
    have he : ∀ a ∈ l, lowerChar a = id a :=
      fun a ha => lowerChar_eq_self (hchar a ha)
    rw [List.map_congr_left he, List.map_id]
  have h2 : l.map dequoteChar = l := by
    have he : ∀ a ∈ l, dequoteChar a = id a :=
      fun a ha => dequoteChar_eq_self (hchar a ha)
    rw [List.map_congr_left he, List.map_id]
  have hws : ∀ c ∈ l, isWs c = true → c = ' ' :=
    fun c hc hw => ws_eq_space hw (hchar c hc)
  have h3 : subRuns isWs ' ' l = l := (subRunsAux_id_of_chain l hchain hws).1
  have h4 : subRuns (fun c => !(allowedChar c || isWs c)) ' ' l = l := by
    apply subRunsAux_id_of_no_p
    intro c hc
    have ht : (allowedChar c || isWs c) = true := by
      rcases hchar c hc with h | rfl
      · rw [h, Bool.true_or]
      · decide
    show (!(allowedChar c || isWs c)) = false
    rw [ht]
    rfl
  show pstrip isWs (subRuns isWs ' '
    (subRuns (fun c => !(allowedChar c || isWs c)) ' '
      (subRuns isWs ' ' ((l.map lowerChar).map dequoteChar)))) = l
  rw [h1, h2, h3, h4, h3]
  exact pstrip_id hh hl

theorem normalize_idem (s : List Char) :
    normalize_text (normalize_text s) = normalize_text s :=
  normalForm_normalize_id (normalize_normalForm s)

/-! ## Lemmas: tokenization -/

theorem splitWsAux_tokens :
    ∀ (l acc : List Char),
      (∀ c ∈ l, allowedChar c = true ∨ c = ' ') →
      (∀ c ∈ acc, allowedChar c = true) →
      ∀ t ∈ splitWsAux l acc, t ≠ [] ∧ ∀ c ∈ t, allowedChar c = true := by
  intro l
  induction l with
  | nil =>
    intro acc _ hacc t ht
    by_cases he : acc = []
    · simp [splitWsAux, he] at ht
    · simp only [splitWsAux, he, if_false, List.mem_singleton] at ht
      subst ht
      refine ⟨by simpa using he, ?_⟩
      intro c hc
      exact hacc c (List.mem_reverse.mp hc)
  | cons a t ih =>
    intro acc hl hacc u hu
    have hlt : ∀ c ∈ t, allowedChar c = true ∨ c = ' ' :=
      fun c hc => hl c (List.mem_cons_of_mem _ hc)
    by_cases hw : isWs a = true
    · by_cases he : acc = []
      · simp only [splitWsAux, hw, if_true, he, if_true] at hu
        exact ih [] hlt (by simp) u hu
      · simp only [splitWsAux, hw, if_true, he, if_false, List.mem_cons] at hu
        rcases hu with rfl | hu
        · refine ⟨by simpa using he, ?_⟩
          intro c hc
          exact hacc c (List.mem_reverse.mp hc)
        · exact ih [] hlt (by simp) u hu
    · rw [Bool.not_eq_true] at hw
      simp only [splitWsAux, hw, Bool.false_eq_true, if_false] at hu
      refine ih (a :: acc) hlt ?_ u hu
      intro c hc
      rcases List.mem_cons.mp hc with rfl | hc
      · rcases hl c (List.mem_cons_self _ _) with h | rfl
        · exact h
        · rw [show isWs ' ' = true from rfl] at hw
          cases hw
      · exact hacc c hc

/-- Every token produced by `tokenize` is non-empty and consists only of
characters in `[a-z0-9']`. -/
theorem tokenize_good {s : List Char} {t : List Char} (ht : t ∈ tokenize s) :
    t ≠ [] ∧ ∀ c ∈ t, allowedChar c = true := by
  unfold tokenize at ht
  by_cases he : normalize_text s = []
  · simp [he] at ht
  · simp only [he, if_false] at ht
    exact splitWsAux_tokens (normalize_text s) []
      (normalize_normalForm s).1 (by simp) t ht

/-! ## Lemmas: whitespace-only and empty inputs -/

theorem normalize_ws_only {s : List Char} (h : ∀ c ∈ s, isWs c = true) :
    normalize_text s = [] := by
  have h1 : s.map lowerChar = s := by
    have he : ∀ a ∈ s, lowerChar a = id a :=
      fun a ha => lowerChar_eq_self_of_ws (h a ha)
    rw [List.map_congr_left he, List.map_id]
  have h2 : s.map dequoteChar = s := by
    have he : ∀ a ∈ s, dequoteChar a = id a :=
      fun a ha => dequoteChar_eq_self_of_ws (h a ha)
    rw [List.map_congr_left he, List.map_id]
  show pstrip isWs (subRuns isWs ' '
    (subRuns (fun c => !(allowedChar c || isWs c)) ' '
      (subRuns isWs ' ' ((s.map lowerChar).map dequoteChar)))) = []
  rw [h1, h2]
  rcases eq_or_ne s [] with rfl | hne
  · rfl
  · rw [show subRuns isWs ' ' s = subRunsAux isWs ' ' false s from rfl,
      (subRunsAux_all_p s h).2, if_neg hne]
    decide

theorem tokenize_ws_only {s : List Char} (h : ∀ c ∈ s, isWs c = true) :
    tokenize s = [] := by
  unfold tokenize
  rw [normalize_ws_only h]
  rfl

theorem tokenize_eq_nil_of_normalize {s : List Char}
    (h : normalize_text s = []) : tokenize s = [] := by
  unfold tokenize
  rw [h]
  rfl

theorem tokenize_normalize_ne {s : List Char}
    (h : tokenize s ≠ []) : normalize_text s ≠ [] := by
  intro he
  exact h (tokenize_eq_nil_of_normalize he)

/-- A character of `[a-z0-9']` occurring in `s` survives normalization, so
the normalized text is non-empty. -/
theorem normalize_ne_nil_of_mem_allowed {s : List Char} {c : Char}
    (hc : c ∈ s) (ha : allowedChar c = true) : normalize_text s ≠ [] := by
  have hfix := lowerChar_eq_self (Or.inl ha)
  have hfix2 := dequoteChar_eq_self (Or.inl ha)
  have hwsf := allowed_not_ws ha
  have hp4 : (fun x => !(allowedChar x || isWs x)) c = false := by
    show (!(allowedChar c || isWs c)) = false
    rw [ha, Bool.true_or]
    rfl
  have h1 : c ∈ s.map lowerChar := by
    rw [List.mem_map]
    exact ⟨c, hc, hfix⟩
  have h2 : c ∈ (s.map lowerChar).map dequoteChar := by
    rw [List.mem_map]
    exact ⟨c, h1, hfix2⟩
  have h3 := subRunsAux_keep ' ' _ false c h2 hwsf
  have h4 := @subRunsAux_keep (fun x => !(allowedChar x || isWs x)) ' ' _ false c h3 hp4
  have h5 := subRunsAux_keep ' ' _ false c h4 hwsf
  have h6 := mem_pstrip_of_mem h5 hwsf
  exact List.ne_nil_of_mem h6

/-! ## Lemmas: `joinWords` -/

theorem mem_joinWords {c : Char} :
    ∀ (ts : List (List Char)) (t : List Char), t ∈ ts → c ∈ t →
      c ∈ joinWords ts := by
  intro ts
  induction ts with
  | nil => intro t ht; simp at ht
  | cons u rest ih =>
    intro t ht hc
    cases rest with
    | nil =>
      rcases List.mem_singleton.mp ht with rfl
      exact hc
    | cons v rest' =>
      show c ∈ u ++ ' ' :: joinWords (v :: rest')
      rcases List.mem_cons.mp ht with rfl | ht
      · exact List.mem_append_left _ hc
      · exact List.mem_append_right _
          (List.mem_cons_of_mem _ (ih t ht hc))

/-! ## Lemmas: substring search (`findSubAux`) -/

theorem isPrefixOf_iff : ∀ p l : List Char,
    p.isPrefixOf l = true ↔ ∃ t, l = p ++ t := by
  intro p
  induction p with
  | nil =>
    intro l
    simp [List.isPrefixOf]
  | cons a p ih =>
    intro l
    cases l with
    | nil => simp [List.isPrefixOf]
    | cons b l' =>
      simp only [List.isPrefixOf, Bool.and_eq_true, beq_iff_eq, ih l',
        List.cons_append, List.cons.injEq]
      constructor
      · rintro ⟨rfl, t, rfl⟩
        exact ⟨t, rfl, rfl⟩
      · rintro ⟨t, rfl, rfl⟩
        exact ⟨rfl, t, rfl⟩

theorem findSubAux_none :
    ∀ (l pat : List Char) (i : Nat), findSubAux pat l i = none →
      ∀ pre post : List Char, l ≠ pre ++ pat ++ post := by
  intro l
  induction l with
  | nil =>
    intro pat i h pre post he
    have : pat.isPrefixOf ([] : List Char) = true := by
      rcases List.append_eq_nil.mp he.symm with ⟨h1, h2⟩
      rcases List.append_eq_nil.mp h1 with ⟨-, rfl⟩
      simp [List.isPrefixOf]
    unfold findSubAux at h
    rw [this] at h
    cases h
  | cons c t ih =>
    intro pat i h pre post he
    unfold findSubAux at h
    by_cases hp : pat.isPrefixOf (c :: t) = true
    · rw [hp] at h
      cases h
    · rw [Bool.not_eq_true] at hp
      rw [hp] at h
      simp only [Bool.false_eq_true, if_false] at h
      cases pre with
      | nil =>
        rw [List.nil_append] at he
        exact absurd ((isPrefixOf_iff pat (c :: t)).mpr ⟨post, he⟩) (by
          rw [hp]
          simp)
      | cons d pre' =>
        have heq := he
        rw [List.cons_append, List.cons_append] at heq
        have ht : t = pre' ++ pat ++ post := by
          have := List.tail_eq_of_cons_eq heq
          simpa using this
        exact ih pat (i + 1) h pre' post ht

theorem findSubAux_isSome_of_occurs {pat flat : List Char}
    (h : ∃ pre post, flat = pre ++ pat ++ post) :
    ∃ j, findSubAux pat flat 0 = some j := by
  cases hf : findSubAux pat flat 0 with
  | none =>
    obtain ⟨pre, post, he⟩ := h
    exact absurd he (findSubAux_none flat pat 0 hf pre post)
  | some j => exact ⟨j, rfl⟩

/-! ## Lemmas: the `best` fold of the anchor search -/

theorem foldl_anchorStep_const (g : Nat → Option MatchResult) (c0 : ℚ)
    (hg : ∀ i r, g i = some r → r.confidence = c0) :
    ∀ (l : List Nat) (b : Option MatchResult),
      (b = none ∨ ∃ rb, b = some rb ∧ rb.confidence = c0) →
      l.foldl (anchorStep g) b =
        (match b with
          | some rb => some rb
          | none => l.findSome? g) := by
  intro l
  induction l with
  | nil =>
    intro b hb
    cases b with
    | none => rfl
    | some rb => rfl
  | cons a t ih =>
    intro b hb
    rw [List.foldl_cons]
    cases hga : g a with
    | none =>
      have hstep : anchorStep g b a = b := by
        unfold anchorStep
        rw [hga]
      rw [hstep, ih b hb]
      cases b with
      | none =>
        rw [List.findSome?_cons, hga]
      | some rb => rfl
    | some cand =>
      have hcand : cand.confidence = c0 := hg a cand hga
      cases b with
      | none =>
        have hstep : anchorStep g none a = some cand := by
          unfold anchorStep
          rw [hga]
        rw [hstep, ih (some cand) (Or.inr ⟨cand, rfl, hcand⟩),
          List.findSome?_cons, hga]
      | some rb =>
        have hconf : rb.confidence = c0 := by
          rcases hb with hb | ⟨rb', hrb', hc⟩
          · cases hb
          · injection hrb' with h
            exact h ▸ hc
        have hstep : anchorStep g (some rb) a = some rb := by
          unfold anchorStep
          rw [hga]
          show (if rb.confidence < cand.confidence then some cand else some rb) =
            some rb
          rw [hconf, hcand, if_neg (lt_irrefl c0)]
        rw [hstep, ih (some rb) (Or.inr ⟨rb, rfl, hconf⟩)]

/-! ## Lemmas: the `best`/`best_score` fold of the fuzzy search -/

theorem foldl_selStep_spec (f : Nat → Option (MatchResult × ℚ)) :
    ∀ (l : List Nat) (acc : Option MatchResult × ℚ),
      (l.foldl (selStep f) acc = acc ∧
        ∀ i ∈ l, ∀ c s, f i = some (c, s) → s ≤ acc.2) ∨
      (∃ l1 i l2 c s, l = l1 ++ i :: l2 ∧ f i = some (c, s) ∧
        l.foldl (selStep f) acc = (some c, s) ∧ acc.2 < s ∧
        (∀ j ∈ l1, ∀ c' s', f j = some (c', s') → s' < s) ∧
        (∀ j ∈ l2, ∀ c' s', f j = some (c', s') → s' ≤ s)) := by
  intro l
  induction l with
  | nil => intro acc; exact Or.inl ⟨rfl, by simp⟩
  | cons a t ih =>
    intro acc
    rw [List.foldl_cons]
    cases hfa : f a with
    | none =>
      have hstep : selStep f acc a = acc := by
        unfold selStep
        rw [hfa]
      rw [hstep]
      rcases ih acc with ⟨heq, hb⟩ | ⟨l1, i, l2, c, s, hdec, hfi, hres, hgt, hpre, hpost⟩
      · refine Or.inl ⟨heq, ?_⟩
        intro i hi c s hfi
        rcases List.mem_cons.mp hi with rfl | hi
        · rw [hfa] at hfi; cases hfi
        · exact hb i hi c s hfi
      · refine Or.inr ⟨a :: l1, i, l2, c, s, by rw [hdec, List.cons_append], hfi, hres, hgt, ?_, hpost⟩
        intro j hj c' s' hfj
        rcases List.mem_cons.mp hj with rfl | hj
        · rw [hfa] at hfj; cases hfj
        · exact hpre j hj c' s' hfj
    | some cs =>
      obtain ⟨c0, s0⟩ := cs
      by_cases hlt : acc.2 < s0
      · have hstep : selStep f acc a = (some c0, s0) := by
          unfold selStep
          rw [hfa]
          simp only [hlt, if_true]
        rw [hstep]
        rcases ih (some c0, s0) with ⟨heq, hb⟩ |
            ⟨l1, i, l2, c, s, hdec, hfi, hres, hgt, hpre, hpost⟩
        · refine Or.inr ⟨[], a, t, c0, s0, rfl, hfa, heq, hlt, by simp, ?_⟩
          intro j hj c' s' hfj
          exact hb j hj c' s' hfj
        · have hgt' : s0 < s := hgt
          refine Or.inr ⟨a :: l1, i, l2, c, s, by rw [hdec, List.cons_append], hfi, hres,
            lt_trans hlt hgt', ?_, hpost⟩
          intro j hj c' s' hfj
          rcases List.mem_cons.mp hj with rfl | hj
          · rw [hfa] at hfj
            injection hfj with h
            injection h with h1 h2
            rw [← h2]
            exact hgt'
          · exact hpre j hj c' s' hfj
      · have hstep : selStep f acc a = acc := by
          unfold selStep
          rw [hfa]
          simp only [hlt, if_false]
        rw [hstep]
        have hle : s0 ≤ acc.2 := le_of_not_lt hlt
        rcases ih acc with ⟨heq, hb⟩ |
            ⟨l1, i, l2, c, s, hdec, hfi, hres, hgt, hpre, hpost⟩
        · refine Or.inl ⟨heq, ?_⟩
          intro i hi c s hfi
          rcases List.mem_cons.mp hi with rfl | hi
          · rw [hfa] at hfi
            injection hfi with h
            injection h with h1 h2
            rw [← h2]
            exact hle
          · exact hb i hi c s hfi
        · refine Or.inr ⟨a :: l1, i, l2, c, s, by rw [hdec, List.cons_append], hfi, hres, hgt, ?_, hpost⟩
          intro j hj c' s' hfj
          rcases List.mem_cons.mp hj with rfl | hj
          · rw [hfa] at hfj
            injection hfj with h
            injection h with h1 h2
            rw [← h2]
            exact lt_of_le_of_lt hle hgt
          · exact hpre j hj c' s' hfj


/-! ## Lemmas: flat transcript builder -/

theorem foldl_filter_skip {α β : Type} (g : β → α → β) (p : α → Bool)
    (hg : ∀ acc a, p a = false → g acc a = acc) :
    ∀ (l : List α) (acc : β), l.foldl g acc = (l.filter p).foldl g acc := by
  intro l
  induction l with
  | nil => intro acc; rfl
  | cons a t ih =>
    intro acc
    cases hp : p a with
    | true =>
      rw [List.foldl_cons, List.filter_cons_of_pos hp, List.foldl_cons, ih]
    | false =>
      rw [List.foldl_cons, List.filter_cons_of_neg (by simp [hp]),
        hg acc a hp, ih]

/-! ## Lemmas: position-to-time mapper -/

theorem overlapSpans_eq_nil {spans : List Span} {pos0 pos1 : Nat}
    (h : ∀ sp ∈ spans, sp.2.1 ≤ pos0 ∨ pos1 ≤ sp.1) :
    overlapSpans spans pos0 pos1 = [] := by
  induction spans with
  | nil => rfl
  | cons sp rest ih =>
    obtain ⟨a, b, st, et⟩ := sp
    have hsp := h (a, b, st, et) (List.mem_cons_self _ _)
    simp only at hsp
    unfold overlapSpans
    rcases hsp with hb | ha
    · rw [if_pos hb]
      exact ih (fun sp hsp => h sp (List.mem_cons_of_mem _ hsp))
    · by_cases hb : b ≤ pos0
      · rw [if_pos hb]
        exact ih (fun sp hsp => h sp (List.mem_cons_of_mem _ hsp))
      · rw [if_neg hb, if_pos ha]

/-! ## Claim C6 -/

/-- C6: `charpos_to_time` is total; it returns `(0, 0)` exactly when no
span overlaps the half-open range `[pos0, pos1)` (a span `[a,b)` overlaps
iff `b > pos0` and `a < pos1`), the returned pair always satisfies
`time_end >= time_start`, and on a non-empty overlap it is the clamped
interpolation inside the first and last overlapped spans. -/
theorem charpos_to_time_spec (spans : List Span) (pos0 pos1 : Nat) :
    ((∀ sp ∈ spans, sp.2.1 ≤ pos0 ∨ pos1 ≤ sp.1) →
      charpos_to_time spans pos0 pos1 = (0, 0)) ∧
    (charpos_to_time spans pos0 pos1).1 ≤ (charpos_to_time spans pos0 pos1).2 ∧
    (∀ first rest, overlapSpans spans pos0 pos1 = first :: rest →
      charpos_to_time spans pos0 pos1 =
        (interpTime first pos0,
         max (interpTime first pos0)
           (interpTime ((first :: rest).getLast (List.cons_ne_nil _ _)) pos1))) := by
  refine ⟨?_, ?_, ?_⟩
  · intro h
    unfold charpos_to_time
    rw [overlapSpans_eq_nil h]
  · unfold charpos_to_time
    cases hov : overlapSpans spans pos0 pos1 with
    | nil => exact le_refl 0
    | cons first rest =>
      dsimp only
      by_cases hlt : interpTime ((first :: rest).getLast (List.cons_ne_nil _ _))
          pos1 < interpTime first pos0
      · rw [if_pos hlt]
      · rw [if_neg hlt]
        exact le_of_not_lt hlt
  · intro first rest hov
    unfold charpos_to_time
    rw [hov]
    dsimp only
    by_cases hlt : interpTime ((first :: rest).getLast (List.cons_ne_nil _ _))
        pos1 < interpTime first pos0
    · rw [if_pos hlt, max_eq_left (le_of_lt hlt)]
    · rw [if_neg hlt, max_eq_right (le_of_not_lt hlt)]

/-- Witness for C6 at a concrete non-overlapping input. -/
theorem charpos_to_time_spec_witness :
    charpos_to_time [(0, 3, 0, 1)] 5 7 = (0, 0) :=
  (charpos_to_time_spec [(0, 3, 0, 1)] 5 7).1 (by decide)

/-! ## Claim C3 (corrected) -/

/-- C3 counterexample: a zero-duration segment (`end == start`) with
non-empty text is NOT skipped by the flat transcript builder — it
contributes a span. -/
theorem build_flat_zero_duration_cex :
    ((⟨1, 1, "hi".data⟩ : CaptionSeg).stop =
      (⟨1, 1, "hi".data⟩ : CaptionSeg).start) ∧
    (build_flat_transcript [⟨1, 1, "hi".data⟩]).2 = [(0, 2, 1, 1)] := by
  constructor
  · rfl
  · with_unfolding_all decide

/-- C3 (amended): the Flat Transcript Builder silently skips exactly the
segments whose normalized text is empty — such a segment contributes no
span and no separator — and, being a total function, never raises.
Zero-duration segments with non-empty text are retained. -/
theorem build_flat_skips_exactly_empty (segs : List CaptionSeg) :
    build_flat_transcript segs =
      build_flat_transcript
        (segs.filter (fun s => !(normalize_text s.text).isEmpty)) := by
  unfold build_flat_transcript
  apply foldl_filter_skip
  intro acc s hs
  have he : normalize_text s.text = [] := by
    rw [Bool.not_eq_false'] at hs
    exact List.isEmpty_iff.mp hs
  simp only [he, if_pos]

/-! ## Claim C7 -/

/-- C7: normalization is deterministic (it is a function) and idempotent,
and case/punctuation-insensitive as in the spec's example
`normalize("Hello, World!") == "hello world"`. -/
theorem normalize_idempotent_claim :
    (∀ s : List Char, normalize_text (normalize_text s) = normalize_text s) ∧
    normalize_text "Hello, World!".data = "hello world".data :=
  ⟨normalize_idem, by decide⟩

/-! ## Claim C9 -/

/-- C9: a snippet whose normalization is empty (for example, only
punctuation) makes both matchers return `none`, for every segment list;
no exception is possible (the functions are total). -/
theorem none_on_empty_normalization (segs : List CaptionSeg)
    (snippet : List Char) (W stride : Nat)
    (h : normalize_text snippet = []) :
    exact_phrase_anchor segs snippet = none ∧
      best_fuzzy_match segs snippet W stride = none := by
  constructor
  · simp [exact_phrase_anchor, h]
  · simp [best_fuzzy_match, tokenize_eq_nil_of_normalize h]

/-- Witness for C9: the raw snippet `"!!!"` is non-empty but normalizes
to the empty string. -/
theorem none_on_empty_normalization_witness :
    exact_phrase_anchor [⟨0, 1, "hello".data⟩] "!!!".data = none ∧
      best_fuzzy_match [⟨0, 1, "hello".data⟩] "!!!".data 80 12 = none :=
  none_on_empty_normalization _ _ 80 12 (by decide)

/-! ## Claim C8 -/

/-- C8: absence of a match is `none`, never an exception: a snippet that
is empty after trimming (whitespace-only) yields `none` from both
matchers for every segment list, and an empty segment list yields `none`
from both matchers for every snippet. -/
theorem none_on_empty_inputs (segs : List CaptionSeg) (snippet : List Char)
    (W stride : Nat) :
    ((∀ c ∈ snippet, isWs c = true) →
      exact_phrase_anchor segs snippet = none ∧
        best_fuzzy_match segs snippet W stride = none) ∧
    (exact_phrase_anchor [] snippet = none ∧
      best_fuzzy_match [] snippet W stride = none) := by
  constructor
  · intro h
    have hn := normalize_ws_only h
    constructor
    · simp [exact_phrase_anchor, hn]
    · simp [best_fuzzy_match, tokenize_eq_nil_of_normalize hn]
  · constructor
    · simp [exact_phrase_anchor, build_flat_transcript]
    · by_cases ht : tokenize snippet = [] <;>
        simp [best_fuzzy_match, wordStream, ht]

/-- Witness for C8 at a whitespace-only snippet and at an empty segment
list. -/
theorem none_on_empty_inputs_witness :
    (exact_phrase_anchor [⟨0, 1, "x".data⟩] "  ".data = none ∧
      best_fuzzy_match [⟨0, 1, "x".data⟩] "  ".data 80 12 = none) ∧
    (exact_phrase_anchor [] "hi".data = none ∧
      best_fuzzy_match [] "hi".data 80 12 = none) :=
  ⟨(none_on_empty_inputs [⟨0, 1, "x".data⟩] "  ".data 80 12).1 (by decide),
   (none_on_empty_inputs [] "hi".data 80 12).2⟩

/-! ## Claim C10 -/

/-- C10: every token of `tokenize` is non-empty and consists only of
characters in `[a-z0-9']` (never whitespace); an empty or whitespace-only
input tokenizes to the empty list. -/
theorem tokenize_tokens_claim (s : List Char) :
    (∀ t ∈ tokenize s, t ≠ [] ∧
      ∀ c ∈ t, allowedChar c = true ∧ isWs c = false) ∧
    ((∀ c ∈ s, isWs c = true) → tokenize s = []) := by
  constructor
  · intro t ht
    obtain ⟨hne, hall⟩ := tokenize_good ht
    exact ⟨hne, fun c hc => ⟨hall c hc, allowed_not_ws (hall c hc)⟩⟩
  · exact tokenize_ws_only

/-- Witness for C10 on a concrete token and a whitespace-only string. -/
theorem tokenize_tokens_claim_witness :
    ("ab".data ≠ [] ∧
      ∀ c ∈ "ab".data, allowedChar c = true ∧ isWs c = false) ∧
    tokenize " \t ".data = [] :=
  ⟨(tokenize_tokens_claim "ab c".data).1 "ab".data (by decide),
   (tokenize_tokens_claim " \t ".data).2 (by decide)⟩

/-! ## Claim C2 (corrected) -/

/-- C2 counterexample: the snippet `"!!!"` is non-empty as raw text and
its (empty) normalization trivially occurs as a contiguous substring of
the flat transcript, yet `exact_phrase_anchor` returns `none` because of
the empty-normalization guard. -/
theorem exact_phrase_empty_normalization_cex :
    "!!!".data ≠ ([] : List Char) ∧
    (∃ pre post : List Char,
      (build_flat_transcript [⟨0, 1, "hello".data⟩]).1 =
        pre ++ normalize_text "!!!".data ++ post) ∧
    exact_phrase_anchor [⟨0, 1, "hello".data⟩] "!!!".data = none := by
  refine ⟨by decide, ⟨"hello".data, [], by decide⟩, by with_unfolding_all decide⟩

/-- C2 (amended): for every snippet whose NORMALIZATION is non-empty and
occurs as a contiguous substring of the flat transcript,
`exact_phrase_anchor` returns a result with evidence `exact_phrase`,
confidence 98.0, coverage 1.0 and similarity 1.0. -/
theorem exact_phrase_substring_match (segs : List CaptionSeg)
    (snippet : List Char) (hsn : normalize_text snippet ≠ [])
    (hsub : ∃ pre post : List Char,
      (build_flat_transcript segs).1 =
        pre ++ normalize_text snippet ++ post) :
    ∃ r, exact_phrase_anchor segs snippet = some r ∧
      r.confidence = 98 ∧ r.details.evidence = "youtube:exact_phrase" ∧
      r.details.coverage = 1 ∧ r.details.similarity = 1 := by
  obtain ⟨j, hj⟩ := findSubAux_isSome_of_occurs hsub
  have hflat : (build_flat_transcript segs).1 ≠ [] := by
    obtain ⟨pre, post, he⟩ := hsub
    rw [he]
    intro h0
    rcases List.append_eq_nil.mp h0 with ⟨h1, -⟩
    rcases List.append_eq_nil.mp h1 with ⟨-, h2⟩
    exact hsn h2
  simp only [exact_phrase_anchor]
  rw [if_neg (by
    push_neg
    exact ⟨hsn, hflat⟩)]
  rw [hj]
  exact ⟨_, rfl, rfl, rfl, rfl, rfl⟩

/-- Witness for the amended C2 on the spec's own example snippet. -/
theorem exact_phrase_substring_match_witness :
    ∃ r, exact_phrase_anchor [⟨0, 2, "hello world".data⟩]
        "Hello, World!".data = some r ∧
      r.confidence = 98 ∧ r.details.evidence = "youtube:exact_phrase" ∧
      r.details.coverage = 1 ∧ r.details.similarity = 1 :=
  exact_phrase_substring_match [⟨0, 2, "hello world".data⟩]
    "Hello, World!".data (by decide) ⟨[], [], by decide⟩

/-! ## Lemmas: anchor candidates -/

theorem anchorCandAt_some {flat : List Char} {spans : List Span}
    {toks : List (List Char)} {n i : Nat} {r : MatchResult}
    (h : anchorCandAt flat spans toks n i = some r) :
    r.confidence = 80 + min 18 (n : ℚ) ∧ r.details.coverage = 1 ∧
      r.details.similarity = 0.95 ∧
      r.details.evidence = "youtube:phrase_anchor" ∧
      r.details.ngram_n = some n := by
  simp only [anchorCandAt] at h
  split at h
  · cases h
  · injection h with h
    subst h
    exact ⟨rfl, rfl, rfl, rfl, rfl⟩

theorem bestAnchorAtN_eq (flat : List Char) (spans : List Span)
    (toks : List (List Char)) (n : Nat) :
    bestAnchorAtN flat spans toks n = anchorHit flat spans toks n := by
  unfold bestAnchorAtN anchorHit
  exact foldl_anchorStep_const _ (80 + min 18 (n : ℚ))
    (fun i r h => (anchorCandAt_some h).1) _ none (Or.inl rfl)

theorem anchorLoop_cons (flat : List Char) (spans : List Span)
    (toks : List (List Char)) (n : Nat) (rest : List Nat) :
    anchorLoop flat spans toks (n :: rest) =
      (if n ≤ toks.length then anchorHit flat spans toks n else none).orElse
        (fun _ => anchorLoop flat spans toks rest) := by
  rw [anchorLoop]
  by_cases hn : toks.length < n
  · rw [if_pos hn, if_neg (by omega)]
    rfl
  · rw [if_neg hn, if_pos (by omega), bestAnchorAtN_eq]
    cases h : anchorHit flat spans toks n with
    | some r => rfl
    | none => rfl

theorem anchorCandAt_nil_flat {spans : List Span} {toks : List (List Char)}
    {n i : Nat} (hn : 1 ≤ n) (hi : i + n ≤ toks.length)
    (hgood : ∀ t ∈ toks, t ≠ [] ∧ ∀ c ∈ t, allowedChar c = true) :
    anchorCandAt [] spans toks n i = none := by
  have hslice : 1 ≤ ((toks.drop i).take n).length := by
    rw [List.length_take, List.length_drop]
    omega
  obtain ⟨t0, srest, hs⟩ : ∃ t0 srest, (toks.drop i).take n = t0 :: srest := by
    cases hs : (toks.drop i).take n with
    | nil => rw [hs] at hslice; simp at hslice
    | cons t0 srest => exact ⟨t0, srest, rfl⟩
  have ht0 : t0 ∈ toks := by
    have : t0 ∈ (toks.drop i).take n := by
      rw [hs]
      exact List.mem_cons_self _ _
    exact List.mem_of_mem_drop (List.mem_of_mem_take this)
  obtain ⟨hne, hall⟩ := hgood t0 ht0
  obtain ⟨c, t0', hc⟩ : ∃ c t0', t0 = c :: t0' := by
    cases t0 with
    | nil => exact absurd rfl hne
    | cons c t0' => exact ⟨c, t0', rfl⟩
  have hcmem : c ∈ joinWords ((toks.drop i).take n) := by
    refine mem_joinWords _ t0 ?_ ?_
    · rw [hs]
      exact List.mem_cons_self _ _
    · rw [hc]
      exact List.mem_cons_self _ _
  have hchunk : normalize_text (joinWords ((toks.drop i).take n)) ≠ [] :=
    normalize_ne_nil_of_mem_allowed hcmem
      (hall c (by rw [hc]; exact List.mem_cons_self _ _))
  simp only [anchorCandAt]
  have hfind : findSubAux
      (normalize_text (joinWords ((toks.drop i).take n))) [] 0 = none := by
    unfold findSubAux
    rw [if_neg]
    intro hpre
    obtain ⟨t, ht⟩ := (isPrefixOf_iff _ _).mp hpre
    rcases List.append_eq_nil.mp ht.symm with ⟨h1, -⟩
    exact hchunk h1
  rw [hfind]

theorem anchorHit_nil_flat {spans : List Span} {toks : List (List Char)}
    {n : Nat} (hn : 1 ≤ n) (hnL : n ≤ toks.length)
    (hgood : ∀ t ∈ toks, t ≠ [] ∧ ∀ c ∈ t, allowedChar c = true) :
    anchorHit [] spans toks n = none := by
  unfold anchorHit
  rw [List.findSome?_eq_none_iff]
  intro i hi
  have hi' : i + n ≤ toks.length := by
    rw [List.mem_range] at hi
    omega
  exact anchorCandAt_nil_flat hn hi' hgood

/-! ## Claim C4 -/

/-- C4: when the full-snippet exact match fails and the snippet has at
least 8 tokens, `exact_phrase_anchor` tries anchor lengths 12, then 10,
then 8 (skipping lengths longer than the snippet), returning the first
hit of the largest length that has one (`Option.orElse` encodes "stop at
the first length with a hit"); every anchor hit carries confidence
`80 + min 18 n`, coverage 1, similarity 0.95 and evidence
`phrase_anchor`; if no length has a hit the result is `none`. -/
theorem anchor_fallback_spec (segs : List CaptionSeg) (snippet : List Char)
    (h8 : 8 ≤ (tokenize snippet).length)
    (hmiss : findSubAux (normalize_text snippet)
      (build_flat_transcript segs).1 0 = none) :
    (exact_phrase_anchor segs snippet =
      (if 12 ≤ (tokenize snippet).length then
          anchorHit (build_flat_transcript segs).1
            (build_flat_transcript segs).2 (tokenize snippet) 12
        else none).orElse (fun _ =>
        (if 10 ≤ (tokenize snippet).length then
            anchorHit (build_flat_transcript segs).1
              (build_flat_transcript segs).2 (tokenize snippet) 10
          else none).orElse (fun _ =>
          anchorHit (build_flat_transcript segs).1
            (build_flat_transcript segs).2 (tokenize snippet) 8))) ∧
    (∀ (n : Nat) (r : MatchResult),
      anchorHit (build_flat_transcript segs).1
        (build_flat_transcript segs).2 (tokenize snippet) n = some r →
      r.confidence = 80 + min 18 (n : ℚ) ∧ r.details.coverage = 1 ∧
        r.details.similarity = 0.95 ∧
        r.details.evidence = "youtube:phrase_anchor" ∧
        r.details.ngram_n = some n) := by
  have hgood : ∀ t ∈ tokenize snippet, t ≠ [] ∧
      ∀ c ∈ t, allowedChar c = true := fun t ht => tokenize_good ht
  have hsn : normalize_text snippet ≠ [] := by
    apply tokenize_normalize_ne
    intro he
    rw [he] at h8
    simp at h8
  constructor
  · by_cases hflat : (build_flat_transcript segs).1 = []
    · have hnone : exact_phrase_anchor segs snippet = none := by
        simp only [exact_phrase_anchor]
        rw [if_pos (Or.inr hflat)]
      rw [hnone, hflat]
      rw [anchorHit_nil_flat (by omega) h8 hgood]
      by_cases h12 : 12 ≤ (tokenize snippet).length
      · rw [if_pos h12,
          anchorHit_nil_flat (by omega) (by omega) hgood,
          if_pos (by omega : 10 ≤ (tokenize snippet).length),
          anchorHit_nil_flat (by omega) (by omega) hgood]
        rfl
      · rw [if_neg h12]
        by_cases h10 : 10 ≤ (tokenize snippet).length
        · rw [if_pos h10, anchorHit_nil_flat (by omega) (by omega) hgood]
          rfl
        · rw [if_neg h10]
          rfl
    · have hloop : exact_phrase_anchor segs snippet =
          anchorLoop (build_flat_transcript segs).1
            (build_flat_transcript segs).2 (tokenize snippet)
            ANCHOR_NGRAMS := by
        simp only [exact_phrase_anchor]
        rw [if_neg (by
          push_neg
          exact ⟨hsn, hflat⟩), hmiss, if_pos h8]
      rw [hloop]
      show anchorLoop _ _ _ [12, 10, 8] = _
      rw [anchorLoop_cons, anchorLoop_cons, anchorLoop_cons]
      show _ = _
      rw [if_pos h8]
      cases h12v : (if 12 ≤ (tokenize snippet).length then
          anchorHit (build_flat_transcript segs).1
            (build_flat_transcript segs).2 (tokenize snippet) 12
        else none) with
      | some r => rfl
      | none =>
        cases h10v : (if 10 ≤ (tokenize snippet).length then
            anchorHit (build_flat_transcript segs).1
              (build_flat_transcript segs).2 (tokenize snippet) 10
          else none) with
        | some r => rfl
        | none =>
          cases h8v : anchorHit (build_flat_transcript segs).1
              (build_flat_transcript segs).2 (tokenize snippet) 8 with
          | some r => rfl
          | none => rfl
  · intro n r hr
    unfold anchorHit at hr
    obtain ⟨i, -, hi⟩ := List.exists_of_findSome?_eq_some hr
    exact anchorCandAt_some hi

/-- Witness for C4: full-snippet match fails (the transcript lacks the
word `zzz`), the 8-word anchor starting at token 1 hits. -/
theorem anchor_fallback_spec_witness :
    (exact_phrase_anchor [⟨0, 2, "one two three four five six seven eight".data⟩]
        "zzz one two three four five six seven eight".data =
      (if 12 ≤ (tokenize
            "zzz one two three four five six seven eight".data).length then
          anchorHit (build_flat_transcript
              [⟨0, 2, "one two three four five six seven eight".data⟩]).1
            (build_flat_transcript
              [⟨0, 2, "one two three four five six seven eight".data⟩]).2
            (tokenize "zzz one two three four five six seven eight".data) 12
        else none).orElse (fun _ =>
        (if 10 ≤ (tokenize
              "zzz one two three four five six seven eight".data).length then
            anchorHit (build_flat_transcript
                [⟨0, 2, "one two three four five six seven eight".data⟩]).1
              (build_flat_transcript
                [⟨0, 2, "one two three four five six seven eight".data⟩]).2
              (tokenize "zzz one two three four five six seven eight".data) 10
          else none).orElse (fun _ =>
          anchorHit (build_flat_transcript
              [⟨0, 2, "one two three four five six seven eight".data⟩]).1
            (build_flat_transcript
              [⟨0, 2, "one two three four five six seven eight".data⟩]).2
            (tokenize "zzz one two three four five six seven eight".data) 8))) ∧
    (∀ (n : Nat) (r : MatchResult),
      anchorHit (build_flat_transcript
          [⟨0, 2, "one two three four five six seven eight".data⟩]).1
        (build_flat_transcript
          [⟨0, 2, "one two three four five six seven eight".data⟩]).2
        (tokenize "zzz one two three four five six seven eight".data) n =
          some r →
      r.confidence = 80 + min 18 (n : ℚ) ∧ r.details.coverage = 1 ∧
        r.details.similarity = 0.95 ∧
        r.details.evidence = "youtube:phrase_anchor" ∧
        r.details.ngram_n = some n) :=
  anchor_fallback_spec [⟨0, 2, "one two three four five six seven eight".data⟩]
    "zzz one two three four five six seven eight".data
    (by decide) (by decide)

/-! ## Lemmas: fuzzy candidates -/

theorem fuzzyCandAt_some {snip : List (List Char)}
    {stream : List (List Char × ℚ × ℚ)} {W i : Nat} {c : MatchResult} {s : ℚ}
    (h : fuzzyCandAt snip stream W i = some (c, s)) :
    s = c.confidence ∧ 1/5 ≤ covAt snip stream W i ∧
      c.confidence = scoreAt snip stream W i ∧
      c.details.coverage = round3 (covAt snip stream W i) ∧
      c.details.similarity = round3 (simAt snip stream W i) ∧
      c.details.evidence = "youtube:timed_transcript" := by
  simp only [fuzzyCandAt] at h
  split at h
  · cases h
  · rename_i hcov
    have hcov' : 1/5 ≤ covAt snip stream W i := le_of_not_lt hcov
    split at h
    · injection h with h
      injection h with h1 h2
      subst h1
      subst h2
      exact ⟨rfl, hcov', rfl, rfl, rfl, rfl⟩
    · injection h with h
      injection h with h1 h2
      subst h1
      subst h2
      exact ⟨rfl, hcov', rfl, rfl, rfl, rfl⟩

theorem best_fuzzy_match_eq_foldl (segs : List CaptionSeg)
    (snippet : List Char) (W stride : Nat)
    (ht : tokenize snippet ≠ []) (hs : wordStream segs ≠ []) :
    best_fuzzy_match segs snippet W stride =
      ((fuzzyPositions segs W stride).foldl
        (selStep (fuzzyCandAt (tokenize snippet) (wordStream segs) W))
        (none, -(10 ^ 18 : ℚ))).1 := by
  simp only [best_fuzzy_match, fuzzyPositions]
  rw [if_neg ht, if_neg hs]

/-! ## Claim C5 -/

/-- C5: when `best_fuzzy_match` returns a result, the result comes from a
window at some scanned start offset `i` whose coverage is at least the
0.20 floor; the confidence equals that window's raw score
`coverage*100 + similarity*40 - length_penalty*5` (with
`length_penalty = min 1 (window_len / max 1 snippet_len)`, see `penAt`),
while the recorded details hold the 3-decimal roundings; and the chosen
window is the earliest one attaining the maximal score: every earlier
passing window scores strictly less, every later one at most equal
(the source compares with strict `>`). -/
theorem fuzzy_spec (segs : List CaptionSeg) (snippet : List Char)
    (W stride : Nat) (r : MatchResult)
    (h : best_fuzzy_match segs snippet W stride = some r) :
    ∃ l1 i l2,
      fuzzyPositions segs W stride = l1 ++ i :: l2 ∧
      fuzzyCandAt (tokenize snippet) (wordStream segs) W i =
        some (r, r.confidence) ∧
      1/5 ≤ covAt (tokenize snippet) (wordStream segs) W i ∧
      r.confidence =
        covAt (tokenize snippet) (wordStream segs) W i * 100 +
          simAt (tokenize snippet) (wordStream segs) W i * 40 -
          penAt (tokenize snippet) (wordStream segs) W i * 5 ∧
      r.details.coverage =
        round3 (covAt (tokenize snippet) (wordStream segs) W i) ∧
      r.details.similarity =
        round3 (simAt (tokenize snippet) (wordStream segs) W i) ∧
      r.details.evidence = "youtube:timed_transcript" ∧
      (∀ j ∈ l1, ∀ c' s',
        fuzzyCandAt (tokenize snippet) (wordStream segs) W j = some (c', s') →
          s' < r.confidence) ∧
      (∀ j ∈ l2, ∀ c' s',
        fuzzyCandAt (tokenize snippet) (wordStream segs) W j = some (c', s') →
          s' ≤ r.confidence) := by
  have ht : tokenize snippet ≠ [] := by
    intro he
    rw [best_fuzzy_match, if_pos he] at h
    cases h
  have hs : wordStream segs ≠ [] := by
    intro he
    rw [best_fuzzy_match, if_neg ht, if_pos he] at h
    cases h
  rw [best_fuzzy_match_eq_foldl segs snippet W stride ht hs] at h
  rcases foldl_selStep_spec (fuzzyCandAt (tokenize snippet) (wordStream segs) W)
      (fuzzyPositions segs W stride) (none, -(10 ^ 18 : ℚ)) with
    ⟨heq, -⟩ | ⟨l1, i, l2, c, s, hdec, hfi, hres, -, hpre, hpost⟩
  · rw [heq] at h
    cases h
  · rw [hres] at h
    have hcr : c = r := by
      simpa using h
    subst hcr
    obtain ⟨hconf, hcov, hscore, hcd, hsd, hev⟩ := fuzzyCandAt_some hfi
    subst hconf
    refine ⟨l1, i, l2, hdec, hfi, hcov, hscore, hcd, hsd, hev, ?_, ?_⟩
    · intro j hj c' s' hfj
      exact hpre j hj c' s' hfj
    · intro j hj c' s' hfj
      exact hpost j hj c' s' hfj

set_option maxRecDepth 100000 in
/-- Witness for C5 at a concrete fuzzy-only match (3-token snippet, so the
anchor stage cannot fire): snippet `"alpha beta zzz"` over the transcript
`"alpha beta gamma"`, where coverage is 2/3, similarity 1/2, length
penalty 1, and the score is 245/3. -/
theorem fuzzy_spec_witness :
    ∃ l1 i l2,
      fuzzyPositions [⟨0, 2, "alpha beta gamma".data⟩] 10 1 = l1 ++ i :: l2 ∧
      fuzzyCandAt (tokenize "alpha beta zzz".data)
        (wordStream [⟨0, 2, "alpha beta gamma".data⟩]) 10 i =
        some (⟨"00:00:00", "00:00:02", 245/3,
          ⟨667/1000, 1/2, "youtube:timed_transcript",
            "alpha beta gamma".data, none, some false, none⟩⟩,
          (⟨"00:00:00", "00:00:02", 245/3,
            ⟨667/1000, 1/2, "youtube:timed_transcript",
              "alpha beta gamma".data, none, some false, none⟩⟩ :
            MatchResult).confidence) ∧
      1/5 ≤ covAt (tokenize "alpha beta zzz".data)
        (wordStream [⟨0, 2, "alpha beta gamma".data⟩]) 10 i ∧
      (⟨"00:00:00", "00:00:02", 245/3,
        ⟨667/1000, 1/2, "youtube:timed_transcript",
          "alpha beta gamma".data, none, some false, none⟩⟩ :
          MatchResult).confidence =
        covAt (tokenize "alpha beta zzz".data)
            (wordStream [⟨0, 2, "alpha beta gamma".data⟩]) 10 i * 100 +
          simAt (tokenize "alpha beta zzz".data)
            (wordStream [⟨0, 2, "alpha beta gamma".data⟩]) 10 i * 40 -
          penAt (tokenize "alpha beta zzz".data)
            (wordStream [⟨0, 2, "alpha beta gamma".data⟩]) 10 i * 5 ∧
      (⟨"00:00:00", "00:00:02", 245/3,
        ⟨667/1000, 1/2, "youtube:timed_transcript",
          "alpha beta gamma".data, none, some false, none⟩⟩ :
          MatchResult).details.coverage =
        round3 (covAt (tokenize "alpha beta zzz".data)
          (wordStream [⟨0, 2, "alpha beta gamma".data⟩]) 10 i) ∧
      (⟨"00:00:00", "00:00:02", 245/3,
        ⟨667/1000, 1/2, "youtube:timed_transcript",
          "alpha beta gamma".data, none, some false, none⟩⟩ :
          MatchResult).details.similarity =
        round3 (simAt (tokenize "alpha beta zzz".data)
          (wordStream [⟨0, 2, "alpha beta gamma".data⟩]) 10 i) ∧
      (⟨"00:00:00", "00:00:02", 245/3,
        ⟨667/1000, 1/2, "youtube:timed_transcript",
          "alpha beta gamma".data, none, some false, none⟩⟩ :
          MatchResult).details.evidence = "youtube:timed_transcript" ∧
      (∀ j ∈ l1, ∀ c' s',
        fuzzyCandAt (tokenize "alpha beta zzz".data)
          (wordStream [⟨0, 2, "alpha beta gamma".data⟩]) 10 j =
            some (c', s') →
          s' < (⟨"00:00:00", "00:00:02", 245/3,
            ⟨667/1000, 1/2, "youtube:timed_transcript",
              "alpha beta gamma".data, none, some false, none⟩⟩ :
              MatchResult).confidence) ∧
      (∀ j ∈ l2, ∀ c' s',
        fuzzyCandAt (tokenize "alpha beta zzz".data)
          (wordStream [⟨0, 2, "alpha beta gamma".data⟩]) 10 j =
            some (c', s') →
          s' ≤ (⟨"00:00:00", "00:00:02", 245/3,
            ⟨667/1000, 1/2, "youtube:timed_transcript",
              "alpha beta gamma".data, none, some false, none⟩⟩ :
              MatchResult).confidence) :=
  fuzzy_spec [⟨0, 2, "alpha beta gamma".data⟩] "alpha beta zzz".data 10 1
    ⟨"00:00:00", "00:00:02", 245/3,
      ⟨667/1000, 1/2, "youtube:timed_transcript",
        "alpha beta gamma".data, none, some false, none⟩⟩
    (by with_unfolding_all decide)

/-! ## Lemmas: score bounds -/

theorem coverageFrac_le_one (a b : List (List Char)) :
    coverageFrac a b ≤ 1 := by
  unfold coverageFrac
  split
  · norm_num
  · rename_i hne
    apply div_le_one_of_le₀
    · exact_mod_cast Finset.card_filter_le _ _
    · positivity

theorem coverageFrac_nonneg (a b : List (List Char)) :
    0 ≤ coverageFrac a b := by
  unfold coverageFrac
  split
  · norm_num
  · positivity

theorem jaccard_le_one (a b : List (List Char)) : jaccard a b ≤ 1 := by
  unfold jaccard
  dsimp only
  split
  · norm_num
  · apply div_le_one_of_le₀
    · exact_mod_cast Finset.card_le_card Finset.inter_subset_union
    · positivity

theorem jaccard_nonneg (a b : List (List Char)) : 0 ≤ jaccard a b := by
  unfold jaccard
  dsimp only
  split
  · norm_num
  · positivity

theorem penAt_nonneg (snip : List (List Char))
    (stream : List (List Char × ℚ × ℚ)) (W i : Nat) :
    0 ≤ penAt snip stream W i := by
  unfold penAt
  apply le_min
  · norm_num
  · positivity

theorem scoreAt_le_140 (snip : List (List Char))
    (stream : List (List Char × ℚ × ℚ)) (W i : Nat) :
    scoreAt snip stream W i ≤ 140 := by
  unfold scoreAt
  have h1 := coverageFrac_le_one snip (winTokensAt stream W i)
  have h2 := jaccard_le_one snip (winTokensAt stream W i)
  have h3 := penAt_nonneg snip stream W i
  unfold covAt simAt
  linarith

/-! ## Lemmas: which results each matcher can produce -/

theorem anchorLoop_some {flat : List Char} {spans : List Span}
    {toks : List (List Char)} {r : MatchResult} :
    ∀ ns : List Nat, anchorLoop flat spans toks ns = some r →
      ∃ n ∈ ns, anchorHit flat spans toks n = some r := by
  intro ns
  induction ns with
  | nil =>
    intro h
    rw [anchorLoop] at h
    cases h
  | cons n rest ih =>
    intro h
    rw [anchorLoop] at h
    by_cases hn : toks.length < n
    · rw [if_pos hn] at h
      obtain ⟨m, hm, hfind⟩ := ih h
      exact ⟨m, List.mem_cons_of_mem _ hm, hfind⟩
    · rw [if_neg hn, bestAnchorAtN_eq] at h
      cases hbest : anchorHit flat spans toks n with
      | some r' =>
        rw [hbest] at h
        injection h with h
        exact ⟨n, List.mem_cons_self _ _, by rw [hbest, h]⟩
      | none =>
        rw [hbest] at h
        obtain ⟨m, hm, hfind⟩ := ih h
        exact ⟨m, List.mem_cons_of_mem _ hm, hfind⟩

theorem exact_phrase_anchor_some {segs : List CaptionSeg}
    {snippet : List Char} {r : MatchResult}
    (h : exact_phrase_anchor segs snippet = some r) :
    (r.details.evidence = "youtube:exact_phrase" ∧ r.confidence = 98) ∨
    (r.details.evidence = "youtube:phrase_anchor" ∧
      ∃ n ∈ ANCHOR_NGRAMS, r.confidence = 80 + min 18 (n : ℚ)) := by
  simp only [exact_phrase_anchor] at h
  split at h
  · cases h
  · split at h
    · injection h with h
      subst h
      exact Or.inl ⟨rfl, rfl⟩
    · split at h
      · obtain ⟨n, hn, hhit⟩ := anchorLoop_some _ h
        unfold anchorHit at hhit
        obtain ⟨i, -, hi⟩ := List.exists_of_findSome?_eq_some hhit
        obtain ⟨hconf, -, -, hev, -⟩ := anchorCandAt_some hi
        exact Or.inr ⟨hev, n, hn, hconf⟩
      · cases h

theorem best_fuzzy_some_core {segs : List CaptionSeg} {snippet : List Char}
    {W stride : Nat} {r : MatchResult}
    (h : best_fuzzy_match segs snippet W stride = some r) :
    ∃ i, fuzzyCandAt (tokenize snippet) (wordStream segs) W i =
      some (r, r.confidence) := by
  have ht : tokenize snippet ≠ [] := by
    intro he
    rw [best_fuzzy_match, if_pos he] at h
    cases h
  have hs : wordStream segs ≠ [] := by
    intro he
    rw [best_fuzzy_match, if_neg ht, if_pos he] at h
    cases h
  rw [best_fuzzy_match_eq_foldl segs snippet W stride ht hs] at h
  rcases foldl_selStep_spec (fuzzyCandAt (tokenize snippet) (wordStream segs) W)
      (fuzzyPositions segs W stride) (none, -(10 ^ 18 : ℚ)) with
    ⟨heq, -⟩ | ⟨l1, i, l2, c, s, -, hfi, hres, -, -, -⟩
  · rw [heq] at h
    cases h
  · rw [hres] at h
    have hcr : c = r := by simpa using h
    subst hcr
    have hconf := (fuzzyCandAt_some hfi).1
    rw [hconf] at hfi
    exact ⟨i, hfi⟩

theorem best_fuzzy_evidence_bound {segs : List CaptionSeg} {snippet : List Char}
    {W stride : Nat} {r : MatchResult}
    (h : best_fuzzy_match segs snippet W stride = some r) :
    r.details.evidence = "youtube:timed_transcript" ∧ r.confidence ≤ 140 := by
  obtain ⟨i, hi⟩ := best_fuzzy_some_core h
  obtain ⟨-, -, hscore, -, -, hev⟩ := fuzzyCandAt_some hi
  exact ⟨hev, hscore ▸ scoreAt_le_140 _ _ _ _⟩

theorem find_best_match_some {segs : List CaptionSeg} {snippet : List Char}
    {W stride : Nat} {r : MatchResult}
    (h : find_best_match segs snippet W stride = some r) :
    exact_phrase_anchor segs snippet = some r ∨
      best_fuzzy_match segs snippet W stride = some r := by
  rw [find_best_match] at h
  split at h
  · rename_i r' heq
    injection h with h
    exact Or.inl (by rw [heq, h])
  · exact Or.inr h

/-! ## Lemmas: `rankScore` on the three evidence strings -/

theorem rankScore_exact (c : ℚ) :
    rankScore "youtube:exact_phrase" c = 1000000 + c := by
  rw [rankScore, if_pos rfl]

theorem rankScore_anchor (c : ℚ) :
    rankScore "youtube:phrase_anchor" c = 900000 + c := by
  rw [rankScore, if_neg (by decide), if_pos rfl]

theorem rankScore_timed (c : ℚ) :
    rankScore "youtube:timed_transcript" c = c := by
  rw [rankScore, if_neg (by decide), if_neg (by decide)]

/-! ## Claim C1 -/

/-- C1: for results the engine can actually produce, the ranking score of
`cli.main` makes any `exact_phrase` result outrank any `phrase_anchor`
result, and any `phrase_anchor` result outrank any `timed_transcript`
result, regardless of the numeric confidences; in particular the fuzzy
confidence is bounded by 140 and so never reaches the 900,000 offset. -/
theorem tier_ordering_dominates (r1 r2 r3 : MatchResult)
    (h1 : EngineProduced r1) (h2 : EngineProduced r2) (h3 : EngineProduced r3)
    (e1 : r1.details.evidence = "youtube:exact_phrase")
    (e2 : r2.details.evidence = "youtube:phrase_anchor")
    (e3 : r3.details.evidence = "youtube:timed_transcript") :
    (rankScore r2.details.evidence r2.confidence <
      rankScore r1.details.evidence r1.confidence) ∧
    (rankScore r3.details.evidence r3.confidence <
      rankScore r2.details.evidence r2.confidence) ∧
    r3.confidence ≤ 140 ∧ (140 : ℚ) < 900000 := by
  obtain ⟨s1, n1, W1, st1, ha1⟩ := h1
  obtain ⟨s2, n2, W2, st2, ha2⟩ := h2
  obtain ⟨s3, n3, W3, st3, ha3⟩ := h3
  have hc1 : r1.confidence = 98 := by
    rcases find_best_match_some ha1 with hex | hfz
    · rcases exact_phrase_anchor_some hex with ⟨-, hc⟩ | ⟨hev, -⟩
      · exact hc
      · rw [hev] at e1
        exact absurd e1 (by decide)
    · have hev := (best_fuzzy_evidence_bound hfz).1
      rw [hev] at e1
      exact absurd e1 (by decide)
  have hc2 : 88 ≤ r2.confidence ∧ r2.confidence ≤ 92 := by
    rcases find_best_match_some ha2 with hex | hfz
    · rcases exact_phrase_anchor_some hex with ⟨hev, -⟩ | ⟨-, n, hn, hc⟩
      · rw [hev] at e2
        exact absurd e2 (by decide)
      · have hn' : n = 12 ∨ n = 10 ∨ n = 8 := by
          simpa [ANCHOR_NGRAMS] using hn
        rcases hn' with rfl | rfl | rfl
        · rw [hc]
          norm_num
        · rw [hc]
          norm_num
        · rw [hc]
          norm_num
    · have hev := (best_fuzzy_evidence_bound hfz).1
      rw [hev] at e2
      exact absurd e2 (by decide)
  have hc3 : r3.confidence ≤ 140 := by
    rcases find_best_match_some ha3 with hex | hfz
    · rcases exact_phrase_anchor_some hex with ⟨hev, -⟩ | ⟨hev, -⟩
      · rw [hev] at e3
        exact absurd e3 (by decide)
      · rw [hev] at e3
        exact absurd e3 (by decide)
    · exact (best_fuzzy_evidence_bound hfz).2
  rw [e1, e2, e3, rankScore_exact, rankScore_anchor, rankScore_timed, hc1]
  refine ⟨by linarith [hc2.2], by linarith [hc2.1], hc3, by norm_num⟩

set_option maxRecDepth 200000 in
/-- Witness for C1 at three concrete engine runs, one per tier. -/
theorem tier_ordering_dominates_witness :
    (rankScore sampleAnchor.details.evidence sampleAnchor.confidence <
      rankScore sampleExact.details.evidence sampleExact.confidence) ∧
    (rankScore sampleFuzzy.details.evidence sampleFuzzy.confidence <
      rankScore sampleAnchor.details.evidence sampleAnchor.confidence) ∧
    sampleFuzzy.confidence ≤ 140 ∧ (140 : ℚ) < 900000 :=
  tier_ordering_dominates sampleExact sampleAnchor sampleFuzzy
    ⟨[⟨0, 2, "hello world".data⟩], "Hello, World!".data, 80, 12,
      by with_unfolding_all decide⟩
    ⟨[⟨0, 2, "one two three four five six seven eight".data⟩],
      "zzz one two three four five six seven eight".data, 80, 12,
      by with_unfolding_all decide⟩
    ⟨[⟨0, 2, "alpha beta gamma".data⟩], "alpha beta zzz".data, 10, 1,
      by with_unfolding_all decide⟩
    rfl rfl rfl

end VideoSource

